import Mathlib

/-!
The argument-text splitter and the value printer of icecream-cpp: a shallow embedding of
`src/icecream.hpp`.

* A `std::string` is a `String`; its iterators are positions `0 .. size` into the list of
  its characters. Reading through an iterator (`*it`) is defined only at the positions
  `0 .. size - 1`; a read before the first character or at `end()` makes the embedded
  function return `none`, and so does building a string from an inverted iterator range.
* Everything written to `std::cout` is returned as the written text; the stream is in its
  initial formatting state, so an `int` is written in decimal.
* `par_count` is an `int` in the source. It is modelled as an unbounded `Int`: the raw text
  is the stringified argument list of one macro call, and the counter moves by at most one
  per character.
-/

namespace icecream

/-! ## The splitter of `icecream::print::print` -/

namespace print

/-- The source lines
`auto e_it = std::prev(it); while (*e_it == ' ') --e_it; ++e_it;`
for the text `s`. The argument is the position one after `e_it`, so the call with `it`
starts at `e_it = std::prev(it)`. At argument `0` the iterator stands before the first
character and the read `*e_it` is outside the text. The result is `e_it` after `++e_it`. -/
def trailing (s : List Char) : Nat → Option Nat
  | 0 => none
  | e + 1 =>
    match s[e]? with
    | none => none
    | some c => if c = ' ' then trailing s e else some (e + 1)

/-- The source line `while (*b_it == ' ') ++b_it;`. The first argument holds the characters
from `b_it` to the end of the text; when it is empty `b_it` is `end()` and the read `*b_it`
is outside the text. The result is the position where the loop stops. -/
def leading : List Char → Nat → Option Nat
  | [], _ => none
  | c :: rest, b_it => if c = ' ' then leading rest (b_it + 1) else some b_it

/-- The body of the separator branch: strip the trailing spaces, then the leading spaces,
then `std::string(b_it, e_it)`, the characters of `s` from `b_it` up to `e_it`. -/
def emplace (s : List Char) (b_it it : Nat) : Option String :=
  match trailing s it with
  | none => none
  | some e_it =>
    match leading (s.drop b_it) b_it with
    | none => none
    | some b =>
      if b ≤ e_it then some (String.mk ((s.drop b).take (e_it - b))) else none

/-- The `while (true)` loop of the constructor. `s` is the whole of `arg_names`; the second
argument holds the characters from `it` to the end (it is empty exactly when
`it == std::end(arg_names)`); then come the position `it`, `b_it`, `par_count` and
`split_names`. -/
def loop (s : List Char) : List Char → Nat → Nat → Int → List String → Option (List String)
  | [], it, b_it, _, split_names =>
    match emplace s b_it it with
    | none => none
    | some name => some (split_names ++ [name])
  | c :: rest, it, b_it, par_count, split_names =>
    if c = ',' ∧ par_count = 0 then
      match emplace s b_it it with
      | none => none
      | some name => loop s rest (it + 1) (it + 1) par_count (split_names ++ [name])
    else if c = '(' then loop s rest (it + 1) b_it (par_count + 1) split_names
    else if c = ')' then loop s rest (it + 1) b_it (par_count - 1) split_names
    else loop s rest (it + 1) b_it par_count split_names

/-- The value of `split_names` when the loop of `print::print` ends, for the raw text
`arg_names`. -/
def split_names (arg_names : String) : Option (List String) :=
  loop arg_names.data arg_names.data 0 0 0 []

end print

/-! ## Values and the class `Icecream` -/

/-- A value handed to `print_value`, one constructor per shape the overloads tell apart,
holding what the selected overload reads from it. -/
inductive Value where
  /-- A type with `operator<<` that is no C string and no raw pointer; `text` is what
  `std::cout << value` writes. -/
  | insertion (text : String)
  /-- A raw pointer `T*` other than a character pointer. It has `operator<<` through
  `void const*`, which writes the `address`; `referent` is the object pointed to, if any. -/
  | pointer (address : String) (referent : Option Value)
  /-- A `char*` or `char const*`: the zero-terminated `text` it points to and what
  `std::cout << reinterpret_cast<void const*>(value)` writes for it. -/
  | c_str (address : String) (text : String)
  /-- A `std::unique_ptr`; `get` is the raw pointer `value.get()` returns. -/
  | unique_ptr (get : Value)
  /-- A `std::weak_ptr` or `boost::weak_ptr`: `value.expired()` and the observed object. -/
  | weak_ptr (expired : Bool) (observed : Option Value)
  /-- A `std::optional` without `operator<<`. -/
  | optional (held : Option Value)
  /-- A `std::pair` without `operator<<`. -/
  | pair (first second : Value)
  /-- An iterable type without `operator<<`; `items` in the order `begin .. end` yields. -/
  | iterable (items : List Value)

/-- The class `Icecream`: its three data members. `func_prefix` is `none` for an empty
`std::function`. -/
structure Icecream where
  str_prefix : String
  func_prefix : Option (Unit → String)
  show_c_string_ : Bool

namespace Icecream

/-- The constructor `Icecream()`. -/
def ctor : Icecream :=
  { str_prefix := "ic| ", func_prefix := none, show_c_string_ := true }

/-- The getter `show_c_string() const`. -/
def show_c_string (ic : Icecream) : Bool := ic.show_c_string_

mutual
/-- The overloads of `print_value`; the result is the text written to `std::cout`. -/
def print_value (ic : Icecream) : Value → String
  | .insertion text => text
  | .pointer address _ => address
  | .c_str address text => if ic.show_c_string_ then text else address
  | .unique_ptr get => print_value ic get
  | .weak_ptr expired _ => if expired then "expired weak_ptr" else "valid weak_ptr"
  | .optional none => "nullopt"
  | .optional (some held) => print_value ic held
  | .pair first second => "(" ++ print_value ic first ++ ", " ++ print_value ic second ++ ")"
  | .iterable [] => "[" ++ "]"
  | .iterable (item :: items) => "[" ++ print_value ic item ++ print_items ic items ++ "]"
/-- The `for (; it != e_it; ++it)` loop of the iterable overload, over the items left. -/
def print_items (ic : Icecream) : List Value → String
  | [] => ""
  | item :: items => ", " ++ print_value ic item ++ print_items ic items
end

/-- The member `print_arg`: the name, `": "`, then the value. -/
def print_arg (ic : Icecream) (name : String) (value : Value) : String :=
  name ++ ": " ++ print_value ic value

/-- The member `print_all_args`. The first argument holds the names from the iterator
`arg_name` to the end of the vector; reading `*arg_name` when it is empty is a read at
`end()`. -/
def print_all_args (ic : Icecream) : List String → List Value → Option String
  | _, [] => some ""
  | [], _ :: _ => none
  | name :: names, arg_value :: args_tail =>
    if 0 < args_tail.length then
      match print_all_args ic names args_tail with
      | none => none
      | some tail => some (print_arg ic name arg_value ++ ", " ++ tail)
    else some (print_arg ic name arg_value)

end Icecream

/-- The constant `std::string::npos`, the largest `size_t`. -/
def npos : Nat := 2 ^ 64 - 1

/-- The highest position of `s` that holds `c`, if there is one. -/
def rfind? : List Char → Char → Option Nat
  | [], _ => none
  | x :: xs, c =>
    match rfind? xs c with
    | some n => some (n + 1)
    | none => if x = c then some 0 else none

/-- The call `s.rfind(c)` of the standard library: the highest position holding `c`, or
`npos` when there is none. -/
def rfind (s : String) (c : Char) : Nat :=
  (rfind? s.data c).getD npos

/-- The call `s.substr(pos)` of the standard library: the characters from `pos` on; it
throws `std::out_of_range` when `pos > size`. -/
def substr (s : String) (pos : Nat) : Option String :=
  if pos ≤ s.length then some (String.mk (s.data.drop pos)) else none

/-- The local `prefix` of `Icecream::print`:
`this->func_prefix ? this->func_prefix() : this->str_prefix`. -/
def Icecream.print_prefix (ic : Icecream) : String :=
  match ic.func_prefix with
  | some f => f ()
  | none => ic.str_prefix

/-- The member `Icecream::print`: the text written to `std::cout`, `std::endl` being a
line feed. `n + 1` is computed in `size_t`, so it wraps at `2 ^ 64`; `line` is written in
decimal. -/
def Icecream.print (ic : Icecream) (file : String) (line : Int) (function : String)
    (arg_names : List String) (args : List Value) : Option String :=
  match args with
  | [] =>
    let n := rfind file '/'
    match substr file ((n + 1) % 2 ^ 64) with
    | none => none
    | some base =>
      some (Icecream.print_prefix ic ++ base ++ ":" ++ toString line ++ " in \"" ++ function
        ++ "\"" ++ "\n")
  | _ :: _ =>
    match Icecream.print_all_args ic arg_names args with
    | none => none
    | some written => some (Icecream.print_prefix ic ++ written ++ "\n")

/-- The constructor `icecream::print::print` run on the object `ic`: split the raw text,
then `ic.print`. -/
def print.ctor (ic : Icecream) (file : String) (line : Int) (function : String)
    (arg_names : String) (args : List Value) : Option String :=
  match print.split_names arg_names with
  | none => none
  | some names => Icecream.print ic file line function names args

/-! ## Specification-side notions for the splitter -/

/-- The parenthesis depth of a text: its number of `(` minus its number of `)`. -/
def depth (t : List Char) : Int := (t.count '(' : Int) - (t.count ')' : Int)

/-- The top-level comma-separated segments of a text, read left to right: `before` is the
text already read, `cur` the segment being collected. A comma is top-level when the depth
of the text before it is zero; it closes the segment and is dropped. -/
def segmentsFrom (before cur : List Char) : List Char → List (List Char)
  | [] => [cur]
  | c :: cs =>
    if c = ',' ∧ depth before = 0 then cur :: segmentsFrom (before ++ [c]) [] cs
    else segmentsFrom (before ++ [c]) (cur ++ [c]) cs

/-- The top-level comma-separated segments of a raw text. -/
def segments (raw : List Char) : List (List Char) := segmentsFrom [] [] raw

/-- A text with all its leading and all its trailing space characters removed. -/
def strip (t : List Char) : List Char :=
  (t.dropWhile (fun c => c = ' ')).rdropWhile (fun c => c = ' ')

/-- Balanced parentheses: the text has as many `)` as `(`, and no prefix of it has more
`)` than `(`. -/
def Balanced (t : List Char) : Prop :=
  depth t = 0 ∧ ∀ k, k ≤ t.length → 0 ≤ depth (t.take k)

/-- Every comma of the text lies inside at least one pair of parentheses. -/
def CommasNested (t : List Char) : Prop :=
  ∀ k, k < t.length → t[k]? = some ',' → 0 < depth (t.take k)

/-- An expression text: not empty, no space at either end, parentheses balanced and every
comma inside parentheses. -/
def ExprText (t : List Char) : Prop :=
  t ≠ [] ∧ t.head? ≠ some ' ' ∧ t.getLast? ≠ some ' ' ∧ Balanced t ∧ CommasNested t

instance (t : List Char) : Decidable (Balanced t) := by
  unfold Balanced; infer_instance

instance (t : List Char) : Decidable (CommasNested t) := by
  unfold CommasNested; infer_instance

instance (t : List Char) : Decidable (ExprText t) := by
  unfold ExprText; infer_instance

/-- The bracket depth of a text when braces count like parentheses: its number of `(` and
`{` minus its number of `)` and `}`. -/
def bracketDepth (t : List Char) : Int :=
  (t.count '(' : Int) + (t.count '{' : Int) - (t.count ')' : Int) - (t.count '}' : Int)

/-! ## The configuration members of `Icecream` -/

/-- The member `prefix(std::string const& value)`: it stores the string and resets
`func_prefix` to `nullptr`. -/
def Icecream.prefix_str (ic : Icecream) (value : String) : Icecream :=
  { ic with str_prefix := value, func_prefix := none }

/-- The member `prefix(std::function<std::string()> const& value)`: it clears the string and
stores the function; `value` is `none` for an empty `std::function`. -/
def Icecream.prefix_func (ic : Icecream) (value : Option (Unit → String)) : Icecream :=
  { ic with str_prefix := "", func_prefix := value }

/-- The member `show_c_string(bool value)`. -/
def Icecream.set_show_c_string (ic : Icecream) (value : Bool) : Icecream :=
  { ic with show_c_string_ := value }

/-- One call of a configuration member on the object. -/
inductive Call where
  | prefix_str (value : String)
  | prefix_func (value : Option (Unit → String))
  | show_c_string (value : Bool)

/-- The object after one configuration call. -/
def Call.apply (ic : Icecream) : Call → Icecream
  | .prefix_str value => Icecream.prefix_str ic value
  | .prefix_func value => Icecream.prefix_func ic value
  | .show_c_string value => Icecream.set_show_c_string ic value

/-- The object after a sequence of configuration calls, made in order on a freshly
constructed `Icecream`. -/
def Call.run (calls : List Call) : Icecream :=
  calls.foldl Call.apply Icecream.ctor

/-! ## The `enable_if` conditions of the `print_value` overloads -/

/-- The values of the seven `detail::` predicates at a type `T`. -/
structure Traits where
  has_insertion : Bool
  is_c_str : Bool
  is_unique_ptr : Bool
  is_weak_ptr : Bool
  is_optional : Bool
  is_pair : Bool
  is_iterable : Bool
  deriving DecidableEq

/-- The traits of `std::string`: it has `operator<<` and is iterable. -/
def Traits.std_string : Traits :=
  { has_insertion := true
    is_c_str := false
    is_unique_ptr := false
    is_weak_ptr := false
    is_optional := false
    is_pair := false
    is_iterable := true }

/-- The traits of a `std::unique_ptr` type. It has no `operator<<` until C++20 and has one
from C++20 on; a program may also declare one for its own element type. -/
def Traits.std_unique_ptr (has_insertion : Bool) : Traits :=
  { has_insertion := has_insertion
    is_c_str := false
    is_unique_ptr := true
    is_weak_ptr := false
    is_optional := false
    is_pair := false
    is_iterable := false }

/-- The traits of a `std::weak_ptr` type, for which a program may declare `operator<<`. -/
def Traits.std_weak_ptr (has_insertion : Bool) : Traits :=
  { has_insertion := has_insertion
    is_c_str := false
    is_unique_ptr := false
    is_weak_ptr := true
    is_optional := false
    is_pair := false
    is_iterable := false }

/-- The seven overloads of `print_value`, in source order. -/
inductive Overload where
  | insertion
  | c_str
  | unique_ptr
  | weak_ptr
  | optional
  | pair
  | iterable
  deriving DecidableEq

/-- The condition inside `std::enable_if` of each overload. -/
def Overload.enabled (t : Traits) : Overload → Bool
  | .insertion => t.has_insertion && !t.is_c_str
  | .c_str => t.is_c_str
  | .unique_ptr => t.is_unique_ptr
  | .weak_ptr => t.is_weak_ptr
  | .optional => t.is_optional && !t.has_insertion
  | .pair => t.is_pair && !t.has_insertion
  | .iterable => t.is_iterable && !t.has_insertion

/-- All the overloads, in source order. -/
def Overload.all : List Overload :=
  [.insertion, .c_str, .unique_ptr, .weak_ptr, .optional, .pair, .iterable]

/-- The overloads that take part in the resolution of `print_value(value)` for a type with
the traits `t`: those whose condition holds. -/
def Overload.candidates (t : Traits) : List Overload :=
  Overload.all.filter (Overload.enabled t)

/-- The overload a call `print_value(value)` selects. All the overloads have the same
parameter list `T const&`, so the call compiles only when exactly one is enabled: with none
there is no matching function, with two or more the call is ambiguous. -/
def Overload.resolve (t : Traits) : Option Overload :=
  match Overload.candidates t with
  | [o] => some o
  | _ => none

/-! ## Further specification-side notions -/

mutual
/-- Whether rendering a value reaches a raw character pointer: the value is one, or a part
that `print_value` renders (the pointer of a unique pointer, the held value of an optional,
a member of a pair, an item of a sequence) reaches one. -/
def Value.reaches_c_str : Value → Bool
  | .insertion _ => false
  | .pointer _ _ => false
  | .c_str _ _ => true
  | .unique_ptr get => Value.reaches_c_str get
  | .weak_ptr _ _ => false
  | .optional none => false
  | .optional (some held) => Value.reaches_c_str held
  | .pair first second => Value.reaches_c_str first || Value.reaches_c_str second
  | .iterable items => Value.any_reaches_c_str items
/-- Whether rendering one of the values reaches a raw character pointer. -/
def Value.any_reaches_c_str : List Value → Bool
  | [] => false
  | item :: items => Value.reaches_c_str item || Value.any_reaches_c_str items
end

/-- The number of top-level commas of a text read after `before`: the commas met while the
depth of the text before them is zero. -/
def topCommasFrom (before : List Char) : List Char → Nat
  | [] => 0
  | c :: cs =>
    (if c = ',' ∧ depth before = 0 then 1 else 0) + topCommasFrom (before ++ [c]) cs

/-- The number of top-level commas of a raw text. -/
def topCommas (raw : List Char) : Nat := topCommasFrom [] raw

/-- The iterator positions at which the loop of `print::print` takes the separator branch,
as pairs `(b_it, it)`, in the order met. The arguments are those of `print.loop`. -/
def print.separators : List Char → Nat → Nat → Int → List (Nat × Nat)
  | [], it, b_it, _ => [(b_it, it)]
  | c :: rest, it, b_it, par_count =>
    if c = ',' ∧ par_count = 0 then (b_it, it) :: print.separators rest (it + 1) (it + 1) par_count
    else if c = '(' then print.separators rest (it + 1) b_it (par_count + 1)
    else if c = ')' then print.separators rest (it + 1) b_it (par_count - 1)
    else print.separators rest (it + 1) b_it par_count

/-! ## The trimming loops -/

theorem depth_nil : depth [] = 0 := by simp [depth]

theorem depth_append (a b : List Char) : depth (a ++ b) = depth a + depth b := by
  simp only [depth, List.count_append]
  push_cast
  ring

theorem depth_cons (c : Char) (t : List Char) : depth (c :: t) = depth [c] + depth t :=
  depth_append [c] t

theorem depth_singleton (c : Char) :
    depth [c] = if c = '(' then 1 else if c = ')' then -1 else 0 := by
  by_cases h1 : c = '('
  · subst h1; simp [depth]
  · by_cases h2 : c = ')'
    · subst h2; simp [depth]
    · simp [depth, h1, h2, List.count_singleton]

theorem getElem?_length_append (a : List Char) (x : Char) (rest : List Char) :
    (a ++ x :: rest)[a.length]? = some x := by
  rw [List.getElem?_append_right (Nat.le_refl _)]
  simp

theorem trailing_spaces (r : List Char) (hr : ∀ c ∈ r, c = ' ') :
    ∀ (a : List Char) (x : Char) (rest : List Char), x ≠ ' ' →
      print.trailing (a ++ [x] ++ r ++ rest) (a.length + 1 + r.length) = some (a.length + 1) := by
  induction r using List.reverseRecOn with
  | nil =>
    intro a x rest hx
    have e1 : a ++ [x] ++ [] ++ rest = a ++ x :: rest := by simp
    have e2 : a.length + 1 + ([] : List Char).length = a.length + 1 := rfl
    rw [e1, e2, print.trailing, getElem?_length_append]
    simp [hx]
  | append_singleton r y ih =>
    intro a x rest hx
    have hy : y = ' ' := hr y (by simp)
    have hr2 : ∀ c ∈ r, c = ' ' := fun c hc => hr c (by simp [hc])
    have h := ih hr2 a x (y :: rest) hx
    have e1 : a ++ [x] ++ (r ++ [y]) ++ rest = a ++ [x] ++ r ++ y :: rest := by simp
    have e2 : a.length + 1 + (r ++ [y]).length = (a ++ [x] ++ r).length + 1 := by
      simp only [List.length_append, List.length_singleton]
      omega
    have e4 : (a ++ [x] ++ r).length = a.length + 1 + r.length := by
      simp only [List.length_append, List.length_singleton]
    rw [e1, e2, print.trailing, getElem?_length_append, e4]
    simp only [hy, if_true]
    rw [← hy]
    exact h

theorem leading_spaces (l : List Char) (hl : ∀ c ∈ l, c = ' ') (x : Char) (hx : x ≠ ' ')
    (rest : List Char) :
    ∀ b : Nat, print.leading (l ++ x :: rest) b = some (b + l.length) := by
  induction l with
  | nil => intro b; simp [print.leading, hx]
  | cons y l ih =>
    intro b
    have hy : y = ' ' := hl y (by simp)
    have hl2 : ∀ c ∈ l, c = ' ' := fun c hc => hl c (by simp [hc])
    rw [List.cons_append, print.leading, hy, if_pos rfl, ih hl2 (b + 1), List.length_cons]
    congr 1
    omega

/-! ## A segment and its stripped core -/

theorem rdropWhile_append_rtakeWhile (p : Char → Bool) (m : List Char) :
    m.rdropWhile p ++ m.rtakeWhile p = m := by
  have h := List.takeWhile_append_dropWhile p m.reverse
  have h2 := congrArg List.reverse h
  rw [List.reverse_append, List.reverse_reverse] at h2
  exact h2

/-- A segment with a non-space character is its stripped core between two runs of spaces;
the core starts and ends with a non-space character. -/
theorem strip_decompose (t : List Char) (h : ∃ c ∈ t, c ≠ ' ') :
    ∃ l r : List Char, t = l ++ strip t ++ r ∧ (∀ c ∈ l, c = ' ') ∧ (∀ c ∈ r, c = ' ') ∧
      (∃ y b, strip t = y :: b ∧ y ≠ ' ') ∧ (∃ a x, strip t = a ++ [x] ∧ x ≠ ' ') := by
  obtain ⟨c, hc, hcs⟩ := h
  have hm : t.dropWhile (fun c => c = ' ') ≠ [] := by
    intro hnil
    rw [List.dropWhile_eq_nil_iff] at hnil
    have := hnil c hc
    simp at this
    exact hcs this
  obtain ⟨y, b, hyb⟩ := List.exists_cons_of_ne_nil hm
  have hy : y ≠ ' ' := by
    have := List.head_dropWhile_not (fun c => decide (c = ' ')) t hm
    simp only [hyb, List.head_cons] at this
    simpa using this
  have hcore : strip t ≠ [] := by
    intro hnil
    unfold strip at hnil
    rw [List.rdropWhile_eq_nil_iff, hyb] at hnil
    have := hnil y (by simp)
    simp at this
    exact hy this
  have hpre : strip t <+: y :: b := by
    unfold strip
    rw [← hyb]
    exact List.rdropWhile_prefix _ _
  refine ⟨t.takeWhile (fun c => c = ' '), (t.dropWhile (fun c => c = ' ')).rtakeWhile
    (fun c => c = ' '), ?_, ?_, ?_, ?_, ?_⟩
  · unfold strip
    rw [List.append_assoc, rdropWhile_append_rtakeWhile, List.takeWhile_append_dropWhile]
  · intro c hc
    simpa using List.mem_takeWhile_imp hc
  · intro c hc
    simpa using List.mem_rtakeWhile_imp hc
  · obtain ⟨z, w, hzw⟩ := List.exists_cons_of_ne_nil hcore
    rw [hzw] at hpre
    obtain ⟨u, hu⟩ := hpre
    simp only [List.cons_append, List.cons.injEq] at hu
    exact ⟨z, w, hzw, by rw [hu.1]; exact hy⟩
  · have hlast := List.rdropWhile_last_not (fun c => decide (c = ' '))
      (t.dropWhile (fun c => c = ' ')) hcore
    refine ⟨(strip t).dropLast, (strip t).getLast hcore, ?_, ?_⟩
    · exact (List.dropLast_append_getLast hcore).symm
    · simpa [strip] using hlast

/-- The separator branch on a segment with a non-space character: `p` is the text before
the segment, `t` the segment, `rest` what follows. No read leaves the text and the name
built is the stripped segment. -/
theorem emplace_segment (p t rest : List Char) (h : ∃ c ∈ t, c ≠ ' ') :
    print.emplace (p ++ t ++ rest) p.length (p.length + t.length)
      = some (String.mk (strip t)) := by
  obtain ⟨l, r, ht, hl, hr, ⟨y, b, hyb, hy⟩, ⟨a, x, hax, hx⟩⟩ := strip_decompose t h
  have hT : print.trailing (p ++ t ++ rest) (p.length + t.length)
      = some (p.length + l.length + (strip t).length) := by
    have e1 : p ++ t ++ rest = (p ++ l ++ a) ++ [x] ++ r ++ rest := by
      conv_lhs => rw [ht, hax]
      simp
    have e2 : p.length + t.length = (p ++ l ++ a).length + 1 + r.length := by
      conv_lhs => rw [ht, hax]
      simp only [List.length_append, List.length_singleton]
      omega
    rw [e1, e2, trailing_spaces r hr _ x rest hx, hax]
    simp only [List.length_append, List.length_singleton, Nat.add_assoc]
  have hL : print.leading ((p ++ t ++ rest).drop p.length) p.length
      = some (p.length + l.length) := by
    have e1 : (p ++ t ++ rest).drop p.length = l ++ y :: (b ++ r ++ rest) := by
      rw [List.append_assoc, List.drop_left]
      conv_lhs => rw [ht, hyb]
      simp
    rw [e1, leading_spaces l hl y hy]
  have hE : ((p ++ t ++ rest).drop (p.length + l.length)).take
      (p.length + l.length + (strip t).length - (p.length + l.length)) = strip t := by
    have e1 : p ++ t ++ rest = (p ++ l) ++ (strip t ++ (r ++ rest)) := by
      conv_lhs => rw [ht]
      simp
    have e2 : p.length + l.length = (p ++ l).length := by simp
    rw [e1, e2, List.drop_left, Nat.add_sub_cancel_left, List.take_left]
  unfold print.emplace
  rw [hT, hL]
  simp only [Nat.le_add_right, if_true]
  rw [hE]

/-! ## The loop against the segments -/

theorem loop_separator (s cs : List Char) (c : Char) (it b_it : Nat) (par_count : Int)
    (names : List String) (name : String) (hsep : c = ',' ∧ par_count = 0)
    (hname : print.emplace s b_it it = some name) :
    print.loop s (c :: cs) it b_it par_count names
      = print.loop s cs (it + 1) (it + 1) par_count (names ++ [name]) := by
  rw [print.loop, if_pos hsep, hname]

theorem loop_inside (s cs : List Char) (c : Char) (it b_it : Nat) (par_count : Int)
    (names : List String) (hsep : ¬ (c = ',' ∧ par_count = 0)) :
    print.loop s (c :: cs) it b_it par_count names
      = print.loop s cs (it + 1) b_it (par_count + depth [c]) names := by
  rw [print.loop, if_neg hsep, depth_singleton]
  by_cases h1 : c = '('
  · rw [if_pos h1, if_pos h1]
  · rw [if_neg h1, if_neg h1]
    by_cases h2 : c = ')'
    · rw [if_pos h2, if_pos h2]; rfl
    · rw [if_neg h2, if_neg h2, Int.add_zero]

/-- The loop, started inside a segment, returns the names collected so far followed by the
stripped segments still to come: `p` is the text before the current segment, `cur` the part
of the current segment already read. -/
theorem loop_segments (s : List Char) :
    ∀ (rest p cur : List Char) (names : List String),
      s = p ++ cur ++ rest →
      (∀ seg ∈ segmentsFrom (p ++ cur) cur rest, ∃ c ∈ seg, c ≠ ' ') →
      print.loop s rest (p.length + cur.length) p.length (depth (p ++ cur)) names
        = some (names ++
            (segmentsFrom (p ++ cur) cur rest).map (fun seg => String.mk (strip seg))) := by
  intro rest
  induction rest with
  | nil =>
    intro p cur names hs hseg
    have hcur : ∃ c ∈ cur, c ≠ ' ' := hseg cur (by simp [segmentsFrom])
    rw [print.loop, hs, emplace_segment p cur [] hcur]
    simp [segmentsFrom]
  | cons c cs ih =>
    intro p cur names hs hseg
    by_cases hsep : c = ',' ∧ depth (p ++ cur) = 0
    · have hsegs : segmentsFrom (p ++ cur) cur (c :: cs)
          = cur :: segmentsFrom (p ++ cur ++ [c]) [] cs := by
        rw [segmentsFrom, if_pos hsep]
      rw [hsegs] at hseg ⊢
      have hcur : ∃ c ∈ cur, c ≠ ' ' := hseg cur (by simp)
      have hname : print.emplace s p.length (p.length + cur.length)
          = some (String.mk (strip cur)) := by
        rw [hs]; exact emplace_segment p cur (c :: cs) hcur
      rw [loop_separator s cs c _ _ _ names _ hsep hname]
      have hd : depth (p ++ cur ++ [c]) = depth (p ++ cur) := by
        rw [depth_append (p ++ cur) [c], depth_singleton, hsep.1]
        simp
      have hlen : (p ++ cur ++ [c]).length = p.length + cur.length + 1 := by
        simp only [List.length_append, List.length_singleton]
      have h := ih (p ++ cur ++ [c]) [] (names ++ [String.mk (strip cur)])
        (by rw [hs]; simp) (by
          intro seg hmem
          rw [List.append_nil] at hmem
          exact hseg seg (List.mem_cons_of_mem _ hmem))
      rw [List.length_nil, Nat.add_zero, hlen, List.append_nil, hd] at h
      rw [h]
      simp
    · have hsegs : segmentsFrom (p ++ cur) cur (c :: cs)
          = segmentsFrom (p ++ (cur ++ [c])) (cur ++ [c]) cs := by
        rw [segmentsFrom, if_neg hsep, List.append_assoc]
      rw [hsegs] at hseg ⊢
      rw [loop_inside s cs c _ _ _ names hsep]
      have hd : depth (p ++ cur) + depth [c] = depth (p ++ (cur ++ [c])) := by
        rw [← List.append_assoc, depth_append (p ++ cur) [c]]
      have hlen : p.length + cur.length + 1 = p.length + (cur ++ [c]).length := by
        simp only [List.length_append, List.length_singleton, Nat.add_assoc]
      rw [hd, hlen]
      exact ih p (cur ++ [c]) names (by rw [hs]; simp) hseg

/-- The splitter on a raw text whose segments all hold a non-space character: it returns,
and the names are the stripped segments in order. -/
theorem split_names_segments (arg_names : String)
    (h : ∀ seg ∈ segments arg_names.data, ∃ c ∈ seg, c ≠ ' ') :
    print.split_names arg_names
      = some ((segments arg_names.data).map (fun seg => String.mk (strip seg))) := by
  have hl := loop_segments arg_names.data arg_names.data [] [] [] (by simp) h
  simpa [print.split_names, segments, depth_nil] using hl

/-! ## Texts joined by a comma and a space -/

theorem intercalate_go (sep : String) :
    ∀ (l : List String) (acc : String),
      String.intercalate.go acc sep l = acc ++ l.foldr (fun a r => sep ++ a ++ r) "" := by
  intro l
  induction l with
  | nil => intro acc; simp [String.intercalate.go]
  | cons a l ih =>
    intro acc
    rw [String.intercalate.go, ih, List.foldr_cons]
    simp only [String.append_assoc]

/-- Reading on over a text none of whose commas is top-level stays in the same segment. -/
theorem segmentsFrom_inside :
    ∀ (t before cur rest : List Char),
      (∀ k, k < t.length → t[k]? = some ',' → depth before + depth (t.take k) ≠ 0) →
      segmentsFrom before cur (t ++ rest) = segmentsFrom (before ++ t) (cur ++ t) rest := by
  intro t
  induction t with
  | nil => intro before cur rest _; simp
  | cons c t ih =>
    intro before cur rest h
    have h0 : ¬ (c = ',' ∧ depth before = 0) := by
      rintro ⟨hc, hd⟩
      have := h 0 (by simp) (by simp [hc])
      simp [depth_nil, hd] at this
    rw [List.cons_append, segmentsFrom, if_neg h0]
    have h1 : ∀ k, k < t.length → t[k]? = some ',' →
        depth (before ++ [c]) + depth (t.take k) ≠ 0 := by
      intro k hk hk2
      have := h (k + 1) (by simp [hk]) (by simpa using hk2)
      rw [List.take_succ_cons, depth_cons] at this
      rw [depth_append before [c]]
      intro h3
      apply this
      rw [← h3]
      ring
    rw [ih (before ++ [c]) (cur ++ [c]) rest h1]
    simp

theorem strip_of_trimmed (t : List Char) (ht : t ≠ []) (hh : t.head? ≠ some ' ')
    (hl : t.getLast? ≠ some ' ') : strip t = t := by
  obtain ⟨y, b, rfl⟩ := List.exists_cons_of_ne_nil ht
  have hy : y ≠ ' ' := by simpa using hh
  unfold strip
  rw [List.dropWhile_cons_of_neg (by simpa using hy), List.rdropWhile_eq_self_iff]
  intro hne
  rw [List.getLast?_eq_getLast _ hne] at hl
  simpa using hl

theorem strip_space_cons (t : List Char) : strip (' ' :: t) = strip t := by
  unfold strip
  rw [List.dropWhile_cons_of_pos (by simp)]

theorem exprText_has_nonspace (t : List Char) (h : ExprText t) : ∃ c ∈ t, c ≠ ' ' := by
  obtain ⟨ht, hh, _⟩ := h
  obtain ⟨y, b, rfl⟩ := List.exists_cons_of_ne_nil ht
  exact ⟨y, by simp, by simpa using hh⟩

/-- The segments of what follows the first expression text in a list joined by `", "`:
each further text opens a new segment, which is the text after one space. -/
theorem segmentsFrom_joined :
    ∀ (ns : List String), (∀ n ∈ ns, ExprText n.data) →
      ∀ (before cur : List Char), depth before = 0 →
        segmentsFrom before cur (ns.foldr (fun a r => ", " ++ a ++ r) "").data
          = cur :: ns.map (fun n => ' ' :: n.data) := by
  intro ns
  induction ns with
  | nil => intro _ before cur _; simp [segmentsFrom]
  | cons n ns ih =>
    intro hwf before cur hd
    obtain ⟨_, _, _, ⟨hbal, _⟩, hnest⟩ := hwf n (by simp)
    have e1 : ((n :: ns).foldr (fun a r => ", " ++ a ++ r) "").data
        = ',' :: ((' ' :: n.data) ++ (ns.foldr (fun a r => ", " ++ a ++ r) "").data) := by
      simp [List.foldr_cons, String.data_append]
    have hin : ∀ k, k < (' ' :: n.data).length → (' ' :: n.data)[k]? = some ',' →
        depth (before ++ [',']) + depth ((' ' :: n.data).take k) ≠ 0 := by
      intro k hk hk2
      cases k with
      | zero => simp at hk2
      | succ k =>
        have hk3 : k < n.data.length := by simpa using hk
        have := hnest k hk3 (by simpa using hk2)
        rw [List.take_succ_cons, depth_cons ' ', depth_append before, hd, depth_singleton,
          depth_singleton]
        simp
        omega
    have hd2 : depth (before ++ [','] ++ ' ' :: n.data) = 0 := by
      rw [depth_append, depth_append, hd, depth_cons ' ' n.data, hbal, depth_singleton,
        depth_singleton]
      simp
    rw [e1, segmentsFrom, if_pos ⟨rfl, hd⟩, segmentsFrom_inside _ _ _ _ hin,
      ih (fun m hm => hwf m (by simp [hm])) _ _ hd2]
    simp

/-- The segments of a non-empty list of expression texts joined by `", "`. -/
theorem segments_joined (n : String) (ns : List String)
    (hwf : ∀ m ∈ n :: ns, ExprText m.data) :
    segments (", ".intercalate (n :: ns)).data
      = n.data :: ns.map (fun m => ' ' :: m.data) := by
  obtain ⟨_, _, _, ⟨hbal, _⟩, hnest⟩ := hwf n (by simp)
  have hin : ∀ k, k < n.data.length → n.data[k]? = some ',' →
      depth [] + depth (n.data.take k) ≠ 0 := by
    intro k hk hk2
    have := hnest k hk hk2
    rw [depth_nil]
    omega
  rw [String.intercalate, intercalate_go, String.data_append, segments,
    segmentsFrom_inside _ _ _ _ hin, List.nil_append,
    segmentsFrom_joined ns (fun m hm => hwf m (by simp [hm])) _ _ hbal]

/-- The splitter returns a list of expression texts joined by `", "` unchanged. -/
theorem split_names_joined (n : String) (ns : List String)
    (hwf : ∀ m ∈ n :: ns, ExprText m.data) :
    print.split_names (", ".intercalate (n :: ns)) = some (n :: ns) := by
  have hsegs := segments_joined n ns hwf
  have hseg : ∀ seg ∈ segments (", ".intercalate (n :: ns)).data, ∃ c ∈ seg, c ≠ ' ' := by
    rw [hsegs]
    intro seg hmem
    rcases List.mem_cons.1 hmem with rfl | hmem
    · exact exprText_has_nonspace _ (hwf n (by simp))
    · obtain ⟨m, hm, rfl⟩ := List.mem_map.1 hmem
      obtain ⟨c, hc, hcs⟩ := exprText_has_nonspace _ (hwf m (by simp [hm]))
      exact ⟨c, by simp [hc], hcs⟩
  rw [split_names_segments _ hseg, hsegs]
  have hstrip : ∀ m ∈ n :: ns, strip m.data = m.data := by
    intro m hm
    obtain ⟨h1, h2, h3, _⟩ := hwf m hm
    exact strip_of_trimmed _ h1 h2 h3
  congr 1
  rw [List.map_cons, hstrip n (by simp)]
  congr 1
  rw [List.map_map]
  conv_rhs => rw [← List.map_id ns]
  apply List.map_congr_left
  intro m hm
  simp only [Function.comp, strip_space_cons, id]
  rw [hstrip m (by simp [hm])]

/-- The loop never ends with fewer names than it started with plus one: the end of the
text always emits a name. -/
theorem loop_length (s : List Char) :
    ∀ (rest : List Char) (it b_it : Nat) (par_count : Int) (names out : List String),
      print.loop s rest it b_it par_count names = some out → names.length < out.length := by
  intro rest
  induction rest with
  | nil =>
    intro it b_it par_count names out h
    rw [print.loop] at h
    cases hE : print.emplace s b_it it with
    | none => simp [hE] at h
    | some name =>
      simp only [hE, Option.some.injEq] at h
      rw [← h]
      simp
  | cons c cs ih =>
    intro it b_it par_count names out h
    rw [print.loop] at h
    split_ifs at h with h1 h2 h3
    · cases hE : print.emplace s b_it it with
      | none => simp [hE] at h
      | some name =>
        simp only [hE] at h
        have := ih _ _ _ _ _ h
        simp only [List.length_append, List.length_singleton] at this
        omega
    · exact ih _ _ _ _ _ h
    · exact ih _ _ _ _ _ h
    · exact ih _ _ _ _ _ h

/-! ## The claims on the splitter -/

/-- C1: for every list of n >= 1 expression texts, each non-empty, without leading or
trailing spaces, with balanced parentheses and with every comma inside at least one pair of
parentheses, the splitter applied to these texts joined by `", "` returns exactly that list
in the same order. -/
theorem split_names_roundtrip (names : List String) (hn : 1 ≤ names.length)
    (hwf : ∀ n ∈ names, ExprText n.data) :
    print.split_names (", ".intercalate names) = some names := by
  cases names with
  | nil => simp at hn
  | cons n ns => exact split_names_joined n ns hwf

/-- C1 at the texts `foo(a, b)`, `bar` and at the single text `f(1, 2)`. -/
theorem split_names_roundtrip_witness :
    (1 ≤ ["foo(a, b)", "bar"].length ∧ (∀ n ∈ ["foo(a, b)", "bar"], ExprText n.data) ∧
      print.split_names "foo(a, b), bar" = some ["foo(a, b)", "bar"]) ∧
    (1 ≤ ["f(1, 2)"].length ∧ (∀ n ∈ ["f(1, 2)"], ExprText n.data) ∧
      print.split_names "f(1, 2)" = some ["f(1, 2)"]) :=
  ⟨⟨by decide, by decide, split_names_roundtrip ["foo(a, b)", "bar"] (by decide) (by decide)⟩,
   ⟨by decide, by decide, split_names_roundtrip ["f(1, 2)"] (by decide) (by decide)⟩⟩

/-- C2 fails as stated: in `std::vector<int>{1, 2}` the only comma lies inside the braces,
and the splitter returns two names, not one. -/
theorem split_names_brace_comma :
    (∀ k, k < "std::vector<int>\x7b1, 2\x7d".data.length →
        "std::vector<int>\x7b1, 2\x7d".data[k]? = some ',' →
        0 < bracketDepth ("std::vector<int>\x7b1, 2\x7d".data.take k)) ∧
      print.split_names "std::vector<int>\x7b1, 2\x7d"
        = some ["std::vector<int>\x7b1", "2\x7d"] ∧
      ¬ ∃ name, print.split_names "std::vector<int>\x7b1, 2\x7d" = some [name] := by
  refine ⟨by decide, by decide, ?_⟩
  rintro ⟨name, h⟩
  have h2 : print.split_names "std::vector<int>\x7b1, 2\x7d"
      = some ["std::vector<int>\x7b1", "2\x7d"] := by decide
  rw [h2] at h
  simp at h

/-- C2, amended: for every raw text of a single expression (a text with a non-space
character) whose commas all lie inside a pair of parentheses, the splitter returns exactly
one name, the text without its leading and trailing spaces. -/
theorem split_names_single (arg_names : String) (hne : ∃ c ∈ arg_names.data, c ≠ ' ')
    (hnest : CommasNested arg_names.data) :
    print.split_names arg_names = some [String.mk (strip arg_names.data)] := by
  have hin : ∀ k, k < arg_names.data.length → arg_names.data[k]? = some ',' →
      depth [] + depth (arg_names.data.take k) ≠ 0 := by
    intro k hk hk2
    have := hnest k hk hk2
    rw [depth_nil]
    omega
  have hsegs : segments arg_names.data = [arg_names.data] := by
    have h := segmentsFrom_inside arg_names.data [] [] [] hin
    rw [List.append_nil] at h
    rw [segments, h]
    simp [segmentsFrom]
  rw [split_names_segments arg_names (by rw [hsegs]; simpa using hne), hsegs]
  rfl

/-- C2, amended, at the text `std::max(a, b)` between spaces. -/
theorem split_names_single_witness :
    (∃ c ∈ " std::max(a, b) ".data, c ≠ ' ') ∧ CommasNested " std::max(a, b) ".data ∧
      print.split_names " std::max(a, b) " = some ["std::max(a, b)"] :=
  ⟨by decide, by decide, split_names_single " std::max(a, b) " (by decide) (by decide)⟩

/-- C3 fails as stated: on the empty raw text the splitter does not return the empty
list. -/
theorem split_names_empty_text : print.split_names "" ≠ some [] := by decide

/-- C3, amended: the splitter never returns the empty list, since the end of the text
always emits a name; and `Icecream::print` with no values writes the same text whatever
names it is handed. -/
theorem split_names_ne_nil :
    (∀ (arg_names : String) (names : List String),
        print.split_names arg_names = some names → names ≠ []) ∧
      (∀ (ic : Icecream) (file : String) (line : Int) (function : String)
        (names names2 : List String),
        Icecream.print ic file line function names []
          = Icecream.print ic file line function names2 []) := by
  constructor
  · intro arg_names names h hnil
    have := loop_length _ _ _ _ _ _ _ h
    rw [hnil] at this
    simp at this
  · intro ic file line function names names2
    rfl

/-- C3, amended, at the raw text `x`. -/
theorem split_names_ne_nil_witness :
    print.split_names "x" = some ["x"] ∧ ["x"] ≠ ([] : List String) :=
  ⟨by decide, split_names_ne_nil.1 "x" ["x"] (by decide)⟩

/-- C4: for every raw text in which every top-level comma-separated segment holds a
non-space character, the splitter returns one name per segment, in order, and each name is
its segment with all leading and all trailing spaces removed and nothing else changed: the
segment is the name between two runs of spaces, and the name neither begins nor ends with a
space. -/
theorem split_names_strip (arg_names : String)
    (h : ∀ seg ∈ segments arg_names.data, ∃ c ∈ seg, c ≠ ' ') :
    print.split_names arg_names
        = some ((segments arg_names.data).map (fun seg => String.mk (strip seg))) ∧
      ∀ seg ∈ segments arg_names.data,
        (∃ l r : List Char, seg = l ++ strip seg ++ r ∧ (∀ c ∈ l, c = ' ') ∧
          (∀ c ∈ r, c = ' ')) ∧
        (strip seg).head? ≠ some ' ' ∧ (strip seg).getLast? ≠ some ' ' := by
  refine ⟨split_names_segments arg_names h, ?_⟩
  intro seg hseg
  obtain ⟨l, r, ht, hl, hr, ⟨y, b, hyb, hy⟩, ⟨a, x, hax, hx⟩⟩ := strip_decompose seg (h seg hseg)
  refine ⟨⟨l, r, ht, hl, hr⟩, ?_, ?_⟩
  · rw [hyb]; simpa using hy
  · rw [hax]; simpa using hx

/-- C4 at a raw text of two segments with spaces around them. -/
theorem split_names_strip_witness :
    (∀ seg ∈ segments "   foo(a, b)  ,  bar ".data, ∃ c ∈ seg, c ≠ ' ') ∧
      print.split_names "   foo(a, b)  ,  bar " = some ["foo(a, b)", "bar"] :=
  ⟨by decide, (split_names_strip "   foo(a, b)  ,  bar " (by decide)).1⟩

/-! ## The printer -/

theorem rfind?_not_mem (c : Char) : ∀ b : List Char, c ∉ b → rfind? b c = none := by
  intro b
  induction b with
  | nil => intro _; rfl
  | cons x b ih =>
    intro h
    have hx : x ≠ c := fun e => h (by simp [e])
    have hb : c ∉ b := fun e => h (by simp [e])
    simp [rfind?, ih hb, hx]

theorem rfind?_last (c : Char) (b : List Char) (hb : c ∉ b) :
    ∀ a : List Char, rfind? (a ++ c :: b) c = some a.length := by
  intro a
  induction a with
  | nil => simp [rfind?, rfind?_not_mem c b hb]
  | cons x a ih => simp [rfind?, ih]

theorem intercalate_cons_cons (sep a b : String) (l : List String) :
    sep.intercalate (a :: b :: l) = a ++ sep ++ sep.intercalate (b :: l) := by
  simp only [String.intercalate, intercalate_go, List.foldr_cons, String.append_assoc]

theorem print_items_eq (ic : Icecream) :
    ∀ items : List Value,
      Icecream.print_items ic items
        = (items.map (Icecream.print_value ic)).foldr (fun a r => ", " ++ a ++ r) "" := by
  intro items
  induction items with
  | nil => simp [Icecream.print_items]
  | cons item items ih =>
    rw [Icecream.print_items, ih, List.map_cons, List.foldr_cons, String.append_assoc]

/-- The member `print_all_args` on as many names as values, at least one: it returns, and
writes the `name: value` entries joined by `", "`. -/
theorem print_all_args_zip (ic : Icecream) :
    ∀ (args : List Value) (names : List String), names.length = args.length → args ≠ [] →
      Icecream.print_all_args ic names args
        = some (", ".intercalate (List.zipWith
            (fun name value => name ++ ": " ++ Icecream.print_value ic value) names args)) := by
  intro args
  induction args with
  | nil => intro names _ h; exact absurd rfl h
  | cons v vs ih =>
    intro names hlen _
    cases names with
    | nil => simp at hlen
    | cons n ns =>
      have hlen2 : ns.length = vs.length := by simpa using hlen
      cases vs with
      | nil =>
        have : ns = [] := List.length_eq_zero.1 hlen2
        subst this
        simp [Icecream.print_all_args, Icecream.print_arg, String.intercalate,
          String.intercalate.go]
      | cons w ws =>
        cases ns with
        | nil => simp at hlen2
        | cons m ms =>
          have h := ih (m :: ms) hlen2 (by simp)
          rw [Icecream.print_all_args, if_pos (by simp), h]
          simp only [List.zipWith_cons_cons, intercalate_cons_cons, Icecream.print_arg,
            String.append_assoc]

/-! ## The claims on the printer -/

/-- C5: for every iterable value without its own stream insertion, `print_value` writes
`[`, the renderings of the items joined by `", "`, each item once and in iteration order,
then `]`; for the empty sequence it writes `[]`. -/
theorem print_value_iterable (ic : Icecream) (items : List Value) :
    Icecream.print_value ic (.iterable items)
        = "[" ++ ", ".intercalate (items.map (Icecream.print_value ic)) ++ "]" ∧
      Icecream.print_value ic (.iterable []) = "[]" := by
  constructor
  · cases items with
    | nil => rw [Icecream.print_value]; rfl
    | cons item items =>
      rw [Icecream.print_value, print_items_eq, List.map_cons, String.intercalate,
        intercalate_go]
      simp only [String.append_assoc]
  · rw [Icecream.print_value]; rfl

/-- C6 fails as stated: for a unique pointer that holds the value rendered `5`, stored at
the address written `0x55d0c8a1beb0`, `print_value` writes the address and not `5`. -/
theorem print_value_unique_ptr_address :
    Icecream.print_value Icecream.ctor
        (.unique_ptr (.pointer "0x55d0c8a1beb0" (some (.insertion "5")))) = "0x55d0c8a1beb0" ∧
      Icecream.print_value Icecream.ctor
        (.unique_ptr (.pointer "0x55d0c8a1beb0" (some (.insertion "5"))))
        ≠ Icecream.print_value Icecream.ctor (.insertion "5") := by
  constructor
  · decide
  · decide

/-- C6, amended: for every unique pointer, `print_value` writes what it writes for the raw
pointer `value.get()`; for a pointer to a non-character type that is the address of the
pointer, whatever it points to. -/
theorem print_value_unique_ptr (ic : Icecream) :
    (∀ get : Value, Icecream.print_value ic (.unique_ptr get) = Icecream.print_value ic get) ∧
      (∀ (address : String) (referent : Option Value),
        Icecream.print_value ic (.unique_ptr (.pointer address referent)) = address) := by
  constructor
  · intro get
    rw [Icecream.print_value]
  · intro address referent
    rw [Icecream.print_value, Icecream.print_value]

/-- C7: for every file path, line number and function text, `Icecream::print` with no
values writes the prefix, the basename, `:`, the line in decimal, ` in "`, the function,
`"` and a line end; the basename is the whole path when it holds no `/`, and the text after
the last `/` otherwise. The path is a `std::string`, shorter than `2 ^ 64`. -/
theorem print_no_values (ic : Icecream) (file : String) (line : Int) (function : String)
    (names : List String) (hsize : file.length < 2 ^ 64) :
    ('/' ∉ file.data →
        Icecream.print ic file line function names []
          = some (Icecream.print_prefix ic ++ file ++ ":" ++ toString line ++ " in \""
              ++ function ++ "\"" ++ "\n")) ∧
      (∀ dir base : String, file = dir ++ "/" ++ base → '/' ∉ base.data →
        Icecream.print ic file line function names []
          = some (Icecream.print_prefix ic ++ base ++ ":" ++ toString line ++ " in \""
              ++ function ++ "\"" ++ "\n")) := by
  constructor
  · intro h
    have h1 : rfind file '/' = npos := by
      simp [rfind, rfind?_not_mem '/' file.data h]
    have h2 : substr file ((npos + 1) % 2 ^ 64) = some file := by
      have : (npos + 1) % 2 ^ 64 = 0 := by decide
      rw [this]
      simp [substr]
    simp only [Icecream.print, h1, h2]
  · intro dir base hfile hbase
    have hdata : file.data = dir.data ++ '/' :: base.data := by
      rw [hfile]
      simp [String.data_append]
    have h1 : rfind file '/' = dir.data.length := by
      simp [rfind, hdata, rfind?_last '/' base.data hbase]
    have hlen : file.length = dir.data.length + 1 + base.data.length := by
      rw [String.length, hdata]
      simp only [List.length_append, List.length_cons]
      omega
    have h2 : substr file ((dir.data.length + 1) % 2 ^ 64) = some base := by
      rw [Nat.mod_eq_of_lt (by omega)]
      unfold substr
      rw [if_pos (by omega), hdata]
      have : (dir.data ++ '/' :: base.data).drop (dir.data.length + 1) = base.data := by
        have e : dir.data ++ '/' :: base.data = (dir.data ++ ['/']) ++ base.data := by simp
        have e2 : dir.data.length + 1 = (dir.data ++ ['/']).length := by simp
        rw [e, e2, List.drop_left]
      rw [this]
    simp only [Icecream.print, h1, h2]

/-- C7 at the default prefix, the file `/a/b/main.cpp`, line 10 and function `foo`, and at
a path without `/`. -/
theorem print_no_values_witness :
    ("/a/b/main.cpp".length < 2 ^ 64 ∧ "/a/b/main.cpp" = "/a/b" ++ "/" ++ "main.cpp" ∧
        '/' ∉ "main.cpp".data ∧
        Icecream.print Icecream.ctor "/a/b/main.cpp" 10 "foo" [] []
          = some "ic| main.cpp:10 in \"foo\"\n") ∧
      ('/' ∉ "main.cpp".data ∧
        Icecream.print Icecream.ctor "main.cpp" 10 "foo" [] []
          = some "ic| main.cpp:10 in \"foo\"\n") :=
  ⟨⟨by decide, by decide, by decide,
      (print_no_values Icecream.ctor "/a/b/main.cpp" 10 "foo" [] (by decide)).2 "/a/b" "main.cpp"
        (by decide) (by decide)⟩,
    ⟨by decide,
      (print_no_values Icecream.ctor "main.cpp" 10 "foo" [] (by decide)).1 (by decide)⟩⟩

/-- C8: for every call with k >= 1 values whose raw text splits into exactly k names, the
line written is the prefix, then the entries `name: rendering` joined by `", "`, in source
order with nothing after the last, then a line end. -/
theorem print_values (ic : Icecream) (file : String) (line : Int) (function : String)
    (arg_names : String) (names : List String) (args : List Value)
    (hk : 1 ≤ args.length) (hsplit : print.split_names arg_names = some names)
    (hlen : names.length = args.length) :
    print.ctor ic file line function arg_names args
      = some (Icecream.print_prefix ic
          ++ ", ".intercalate (List.zipWith
              (fun name value => name ++ ": " ++ Icecream.print_value ic value) names args)
          ++ "\n") := by
  cases args with
  | nil => simp at hk
  | cons v vs =>
    rw [print.ctor, hsplit]
    simp only [Icecream.print, print_all_args_zip ic (v :: vs) names hlen (by simp)]

/-- C8 at `IC(x, y)` with `x = 5` and `y = "hi"`, and at `IC(v)` with the sequence
`[1, 2]`. -/
theorem print_values_witness :
    (1 ≤ [Value.insertion "5", Value.insertion "hi"].length ∧
        print.split_names "x, y" = some ["x", "y"] ∧
        print.ctor Icecream.ctor "main.cpp" 10 "foo" "x, y"
          [Value.insertion "5", Value.insertion "hi"] = some "ic| x: 5, y: hi\n") ∧
      (1 ≤ [Value.iterable [Value.insertion "1", Value.insertion "2"]].length ∧
        print.split_names "v" = some ["v"] ∧
        print.ctor Icecream.ctor "main.cpp" 10 "foo" "v"
          [Value.iterable [Value.insertion "1", Value.insertion "2"]]
          = some "ic| v: [1, 2]\n") :=
  ⟨⟨by decide, by decide,
      print_values Icecream.ctor "main.cpp" 10 "foo" "x, y" ["x", "y"]
        [Value.insertion "5", Value.insertion "hi"] (by decide) (by decide) (by decide)⟩,
    ⟨by decide, by decide,
      print_values Icecream.ctor "main.cpp" 10 "foo" "v" ["v"]
        [Value.iterable [Value.insertion "1", Value.insertion "2"]] (by decide) (by decide)
        (by decide)⟩⟩

/-- C9: for every pair-like value without its own stream insertion, `print_value` writes
`(`, the rendering of the first member, `", "`, the rendering of the second member, `)`. -/
theorem print_value_pair (ic : Icecream) (first second : Value) :
    Icecream.print_value ic (.pair first second)
      = "(" ++ Icecream.print_value ic first ++ ", " ++ Icecream.print_value ic second
          ++ ")" := by
  rw [Icecream.print_value]

/-- C10: for every optional-like value without its own stream insertion, `print_value`
writes the rendering of the held value when there is one, and `nullopt` when it is
empty. -/
theorem print_value_optional (ic : Icecream) :
    (∀ held : Value,
        Icecream.print_value ic (.optional (some held)) = Icecream.print_value ic held) ∧
      Icecream.print_value ic (.optional none) = "nullopt" := by
  constructor
  · intro held
    rw [Icecream.print_value]
  · rw [Icecream.print_value]

/-! ## The claims on the pointer overloads and the configuration -/

/-- C11: for every weak pointer, `print_value` writes exactly `expired weak_ptr` when the
pointer is expired and exactly `valid weak_ptr` otherwise; the text depends on the expired
flag only, not on the observed object nor on the configuration. -/
theorem print_value_weak_ptr (ic : Icecream) (observed : Option Value) :
    Icecream.print_value ic (.weak_ptr true observed) = "expired weak_ptr" ∧
      Icecream.print_value ic (.weak_ptr false observed) = "valid weak_ptr" ∧
      ∀ (ic2 : Icecream) (expired : Bool) (observed2 : Option Value),
        Icecream.print_value ic (.weak_ptr expired observed)
          = Icecream.print_value ic2 (.weak_ptr expired observed2) := by
  refine ⟨?_, ?_, ?_⟩
  · rw [Icecream.print_value]; rfl
  · rw [Icecream.print_value]; rfl
  · intro ic2 expired observed2
    rw [Icecream.print_value, Icecream.print_value]

mutual
/-- A value whose rendering reaches no raw character pointer is written alike by any two
objects. -/
theorem print_value_config (ic ic2 : Icecream) :
    ∀ v : Value, v.reaches_c_str = false →
      Icecream.print_value ic v = Icecream.print_value ic2 v
  | .insertion _, _ => by rw [Icecream.print_value, Icecream.print_value]
  | .pointer _ _, _ => by rw [Icecream.print_value, Icecream.print_value]
  | .c_str _ _, h => by simp [Value.reaches_c_str] at h
  | .unique_ptr get, h => by
    rw [Icecream.print_value, Icecream.print_value]
    exact print_value_config ic ic2 get (by simpa [Value.reaches_c_str] using h)
  | .weak_ptr _ _, _ => by rw [Icecream.print_value, Icecream.print_value]
  | .optional none, _ => by rw [Icecream.print_value, Icecream.print_value]
  | .optional (some held), h => by
    rw [Icecream.print_value, Icecream.print_value]
    exact print_value_config ic ic2 held (by simpa [Value.reaches_c_str] using h)
  | .pair first second, h => by
    have h2 : first.reaches_c_str = false ∧ second.reaches_c_str = false := by
      simpa [Value.reaches_c_str] using h
    rw [Icecream.print_value, Icecream.print_value, print_value_config ic ic2 first h2.1,
      print_value_config ic ic2 second h2.2]
  | .iterable [], _ => by rw [Icecream.print_value, Icecream.print_value]
  | .iterable (item :: items), h => by
    have h2 : item.reaches_c_str = false ∧ Value.any_reaches_c_str items = false := by
      simpa [Value.reaches_c_str, Value.any_reaches_c_str] using h
    rw [Icecream.print_value, Icecream.print_value, print_value_config ic ic2 item h2.1,
      print_items_config ic ic2 items h2.2]
/-- The items left of a sequence none of which reaches a raw character pointer are written
alike by any two objects. -/
theorem print_items_config (ic ic2 : Icecream) :
    ∀ items : List Value, Value.any_reaches_c_str items = false →
      Icecream.print_items ic items = Icecream.print_items ic2 items
  | [], _ => by rw [Icecream.print_items, Icecream.print_items]
  | item :: items, h => by
    have h2 : item.reaches_c_str = false ∧ Value.any_reaches_c_str items = false := by
      simpa [Value.any_reaches_c_str] using h
    rw [Icecream.print_items, Icecream.print_items, print_value_config ic ic2 item h2.1,
      print_items_config ic ic2 items h2.2]
end

/-- C12: the `show_c_string` toggle influences rendering only through the character-pointer
overload. For every value whose rendering reaches no raw character pointer, at any nesting
level, `print_value` writes the same text with the toggle on and off; for a character
pointer it writes the zero-terminated text when the toggle is on and the address of the
pointer otherwise. -/
theorem print_value_show_c_string (ic : Icecream) :
    (∀ v : Value, v.reaches_c_str = false →
        Icecream.print_value (Icecream.set_show_c_string ic true) v
          = Icecream.print_value (Icecream.set_show_c_string ic false) v) ∧
      (∀ address text : String,
        Icecream.print_value (Icecream.set_show_c_string ic true) (.c_str address text) = text ∧
        Icecream.print_value (Icecream.set_show_c_string ic false) (.c_str address text)
          = address) := by
  constructor
  · intro v hv
    exact print_value_config _ _ v hv
  · intro address text
    constructor
    · rw [Icecream.print_value]; rfl
    · rw [Icecream.print_value]; rfl

/-- C12 at a sequence holding a pair, an empty optional, a unique pointer to a non-character
object and a weak pointer that observes a character pointer. -/
theorem print_value_show_c_string_witness :
    (Value.iterable [.pair (.insertion "1") (.optional none),
        .unique_ptr (.pointer "0x10" (some (.c_str "0x20" "hi"))),
        .weak_ptr false (some (.c_str "0x20" "hi"))]).reaches_c_str = false ∧
      Icecream.print_value (Icecream.set_show_c_string Icecream.ctor true)
          (.iterable [.pair (.insertion "1") (.optional none),
            .unique_ptr (.pointer "0x10" (some (.c_str "0x20" "hi"))),
            .weak_ptr false (some (.c_str "0x20" "hi"))])
        = Icecream.print_value (Icecream.set_show_c_string Icecream.ctor false)
          (.iterable [.pair (.insertion "1") (.optional none),
            .unique_ptr (.pointer "0x10" (some (.c_str "0x20" "hi"))),
            .weak_ptr false (some (.c_str "0x20" "hi"))]) :=
  ⟨by decide, (print_value_show_c_string Icecream.ctor).1 _ (by decide)⟩

theorem rfind?_lt (c : Char) : ∀ (b : List Char) (n : Nat), rfind? b c = some n → n < b.length := by
  intro b
  induction b with
  | nil => intro n h; simp [rfind?] at h
  | cons x b ih =>
    intro n h
    rw [rfind?] at h
    cases hr : rfind? b c with
    | some m =>
      rw [hr] at h
      simp only [Option.some.injEq] at h
      have := ih m hr
      simp only [List.length_cons]
      omega
    | none =>
      rw [hr] at h
      by_cases hx : x = c
      · simp only [hx, if_true, Option.some.injEq] at h
        simp only [List.length_cons]
        omega
      · simp [hx] at h

/-- The call `file.substr(file.rfind('/') + 1)` never throws. -/
theorem substr_rfind (file : String) :
    ∃ base, substr file ((rfind file '/' + 1) % 2 ^ 64) = some base := by
  unfold substr rfind
  cases hr : rfind? file.data '/' with
  | none =>
    have h0 : (npos + 1) % 2 ^ 64 = 0 := by decide
    simp only [Option.getD_none, h0]
    rw [if_pos (Nat.zero_le _)]
    exact ⟨_, rfl⟩
  | some n =>
    have hn := rfind?_lt '/' file.data n hr
    have hle : (n + 1) % 2 ^ 64 ≤ n + 1 := Nat.mod_le _ _
    have hlen : file.length = file.data.length := rfl
    simp only [Option.getD_some]
    rw [if_pos (by omega)]
    exact ⟨_, rfl⟩

/-- Every text `Icecream::print` writes starts with the resolved prefix. -/
theorem print_starts_with_prefix (ic : Icecream) (file : String) (line : Int) (function : String)
    (names : List String) (args : List Value) (out : String)
    (h : Icecream.print ic file line function names args = some out) :
    ∃ rest, out = Icecream.print_prefix ic ++ rest := by
  unfold Icecream.print at h
  cases args with
  | nil =>
    obtain ⟨base, hb⟩ := substr_rfind file
    simp only [hb, Option.some.injEq] at h
    exact ⟨base ++ ":" ++ toString line ++ " in \"" ++ function ++ "\"" ++ "\n", by
      rw [← h]; simp only [String.append_assoc]⟩
  | cons v vs =>
    cases hp : Icecream.print_all_args ic names (v :: vs) with
    | none => simp [hp] at h
    | some written =>
      simp only [hp, Option.some.injEq] at h
      exact ⟨written ++ "\n", by rw [← h]; simp only [String.append_assoc]⟩

/-- The member `print_all_args` with at least as many names as values returns: no read
leaves the names vector. -/
theorem print_all_args_zip_le (ic : Icecream) :
    ∀ (args : List Value) (names : List String), args.length ≤ names.length → args ≠ [] →
      Icecream.print_all_args ic names args
        = some (", ".intercalate (List.zipWith
            (fun name value => name ++ ": " ++ Icecream.print_value ic value) names args)) := by
  intro args
  induction args with
  | nil => intro names _ h; exact absurd rfl h
  | cons v vs ih =>
    intro names hlen _
    cases names with
    | nil => simp at hlen
    | cons n ns =>
      have hlen2 : vs.length ≤ ns.length := by simpa using hlen
      cases vs with
      | nil =>
        simp [Icecream.print_all_args, Icecream.print_arg, String.intercalate,
          String.intercalate.go]
      | cons w ws =>
        cases ns with
        | nil => simp at hlen2
        | cons m ms =>
          have h := ih (m :: ms) hlen2 (by simp)
          rw [Icecream.print_all_args, if_pos (by simp), h]
          simp only [List.zipWith_cons_cons, intercalate_cons_cons, Icecream.print_arg,
            String.append_assoc]

/-- The member `Icecream::print` returns when it has no values, and when it has values and
at least as many names. -/
theorem print_returns (ic : Icecream) (file : String) (line : Int) (function : String)
    (names : List String) (args : List Value) (h : args.length ≤ names.length ∨ args = []) :
    ∃ rest, Icecream.print ic file line function names args
      = some (Icecream.print_prefix ic ++ rest) := by
  cases args with
  | nil =>
    obtain ⟨base, hb⟩ := substr_rfind file
    refine ⟨base ++ ":" ++ toString line ++ " in \"" ++ function ++ "\"" ++ "\n", ?_⟩
    simp only [Icecream.print, hb, String.append_assoc]
  | cons v vs =>
    have hle : (v :: vs).length ≤ names.length := by
      rcases h with h | h
      · exact h
      · simp at h
    refine ⟨", ".intercalate (List.zipWith
      (fun name value => name ++ ": " ++ Icecream.print_value ic value) names (v :: vs))
      ++ "\n", ?_⟩
    simp only [Icecream.print, print_all_args_zip_le ic (v :: vs) names hle (by simp),
      String.append_assoc]

theorem foldl_set_show_c_string (toggles : List Bool) :
    ∀ ic : Icecream,
      Icecream.str_prefix (toggles.foldl Icecream.set_show_c_string ic) = ic.str_prefix ∧
      Icecream.func_prefix (toggles.foldl Icecream.set_show_c_string ic) = ic.func_prefix := by
  induction toggles with
  | nil => intro ic; exact ⟨rfl, rfl⟩
  | cons b bs ih =>
    intro ic
    rw [List.foldl_cons]
    exact ih (Icecream.set_show_c_string ic b)

/-- C13: after `prefix` is called with a function returning `"> "`, whatever the object was
before, the fixed prefix string is cleared, and for as long as `prefix` is not called again
(only `show_c_string` may be) every text `Icecream::print` and the `IC` call write starts
with `"> "`; `Icecream::print` does return such a text when it has no values or at least as
many names as values. -/
theorem print_after_prefix_func (ic : Icecream) (f : Unit → String) (hf : f () = "> ")
    (toggles : List Bool) :
    Icecream.str_prefix (Icecream.prefix_func ic (some f)) = "" ∧
      Icecream.str_prefix
        (toggles.foldl Icecream.set_show_c_string (Icecream.prefix_func ic (some f))) = "" ∧
      ∀ (file : String) (line : Int) (function : String) (args : List Value),
        (∀ (names : List String) (out : String),
          Icecream.print
            (toggles.foldl Icecream.set_show_c_string (Icecream.prefix_func ic (some f)))
            file line function names args = some out → ∃ rest, out = "> " ++ rest) ∧
        (∀ (names : List String), args.length ≤ names.length ∨ args = [] →
          ∃ rest, Icecream.print
            (toggles.foldl Icecream.set_show_c_string (Icecream.prefix_func ic (some f)))
            file line function names args = some ("> " ++ rest)) ∧
        (∀ (arg_names out : String),
          print.ctor
            (toggles.foldl Icecream.set_show_c_string (Icecream.prefix_func ic (some f)))
            file line function arg_names args = some out → ∃ rest, out = "> " ++ rest) := by
  have hfold := foldl_set_show_c_string toggles (Icecream.prefix_func ic (some f))
  have hpre : Icecream.print_prefix
      (toggles.foldl Icecream.set_show_c_string (Icecream.prefix_func ic (some f))) = "> " := by
    unfold Icecream.print_prefix
    rw [hfold.2]
    exact hf
  refine ⟨rfl, hfold.1, ?_⟩
  intro file line function args
  refine ⟨?_, ?_, ?_⟩
  · intro names out h
    have := print_starts_with_prefix _ _ _ _ _ _ _ h
    rwa [hpre] at this
  · intro names h
    have := print_returns
      (toggles.foldl Icecream.set_show_c_string (Icecream.prefix_func ic (some f)))
      file line function names args h
    rwa [hpre] at this
  · intro arg_names out h
    unfold print.ctor at h
    cases hs : print.split_names arg_names with
    | none => simp [hs] at h
    | some names =>
      simp only [hs] at h
      have := print_starts_with_prefix _ _ _ _ _ _ _ h
      rwa [hpre] at this

/-- C13 at an object whose fixed prefix was `"dbg "`, with the toggle switched twice after
the prefix function was set. -/
theorem print_after_prefix_func_witness :
    (fun _ : Unit => "> ") () = "> " ∧
      Icecream.print
        ([false, true].foldl Icecream.set_show_c_string
          (Icecream.prefix_func (Icecream.prefix_str Icecream.ctor "dbg ")
            (some (fun _ : Unit => "> "))))
        "main.cpp" 10 "foo" ["x"] [Value.insertion "5"] = some "> x: 5\n" ∧
      ∃ rest, "> x: 5\n" = "> " ++ rest :=
  ⟨rfl, by decide,
    ((print_after_prefix_func (Icecream.prefix_str Icecream.ctor "dbg ")
      (fun _ : Unit => "> ") rfl [false, true]).2.2 "main.cpp" 10 "foo"
        [Value.insertion "5"]).1 ["x"] "> x: 5\n" (by decide)⟩

/-- The invariant of the two prefix members is kept by every configuration call. -/
theorem apply_keeps_exclusive (ic : Icecream) (call : Call)
    (h : (Icecream.func_prefix ic).isSome = true → ic.str_prefix = "") :
    (Icecream.func_prefix (Call.apply ic call)).isSome = true →
      Icecream.str_prefix (Call.apply ic call) = "" := by
  cases call with
  | prefix_str value => intro h2; simp [Call.apply, Icecream.prefix_str] at h2
  | prefix_func value => intro _; rfl
  | show_c_string value => exact h

theorem foldl_keeps_exclusive (calls : List Call) :
    ∀ ic : Icecream, ((Icecream.func_prefix ic).isSome = true → ic.str_prefix = "") →
      (Icecream.func_prefix (calls.foldl Call.apply ic)).isSome = true →
        Icecream.str_prefix (calls.foldl Call.apply ic) = "" := by
  induction calls with
  | nil => intro ic h; exact h
  | cons call calls ih =>
    intro ic h
    rw [List.foldl_cons]
    exact ih (Call.apply ic call) (apply_keeps_exclusive ic call h)

/-- C14: in every configuration state reachable from the initial one by calls of
`prefix(string)`, `prefix(function)` and `show_c_string(bool)`, whenever a prefix function
is set the fixed string is empty, and right after `prefix(string)` no prefix function is
set. -/
theorem prefix_exclusive (calls : List Call) :
    ((Icecream.func_prefix (Call.run calls)).isSome = true →
        Icecream.str_prefix (Call.run calls) = "") ∧
      ∀ value : String,
        Icecream.func_prefix (Call.run (calls ++ [Call.prefix_str value])) = none := by
  constructor
  · exact foldl_keeps_exclusive calls Icecream.ctor (by intro h; simp [Icecream.ctor] at h)
  · intro value
    simp [Call.run, List.foldl_append, Call.apply, Icecream.prefix_str]

/-- C14 after `prefix("dbg ")`, `prefix` with a function, `show_c_string(false)`. -/
theorem prefix_exclusive_witness :
    (Icecream.func_prefix (Call.run [Call.prefix_str "dbg ",
        Call.prefix_func (some (fun _ : Unit => "> ")), Call.show_c_string false])).isSome = true ∧
      Icecream.str_prefix (Call.run [Call.prefix_str "dbg ",
        Call.prefix_func (some (fun _ : Unit => "> ")), Call.show_c_string false]) = "" :=
  ⟨by decide, (prefix_exclusive [Call.prefix_str "dbg ",
    Call.prefix_func (some (fun _ : Unit => "> ")), Call.show_c_string false]).1 (by decide)⟩

/-- C15: for every type that has stream insertion and is no C string, the overload for
types with `operator<<` is enabled and the optional, pair and iterable overloads are all
disabled; when the type is no unique or weak pointer either, that overload is the one
selected, and it writes the text `operator<<` writes. -/
theorem insertion_beats_structural (t : Traits) (hins : t.has_insertion = true)
    (hc : t.is_c_str = false) :
    Overload.enabled t .insertion = true ∧ Overload.enabled t .optional = false ∧
      Overload.enabled t .pair = false ∧ Overload.enabled t .iterable = false ∧
      (t.is_unique_ptr = false → t.is_weak_ptr = false →
        Overload.resolve t = some .insertion) ∧
      ∀ (ic : Icecream) (text : String), Icecream.print_value ic (.insertion text) = text := by
  obtain ⟨a, b, c, d, e, f, g⟩ := t
  simp only at hins hc
  subst hins hc
  refine ⟨rfl, ?_, ?_, ?_, ?_, ?_⟩
  · simp [Overload.enabled]
  · simp [Overload.enabled]
  · simp [Overload.enabled]
  · intro h1 h2
    simp only at h1 h2
    subst h1 h2
    cases e <;> cases f <;> cases g <;> rfl
  · intro ic text
    rw [Icecream.print_value]

/-- C15 at the traits of `std::string`, which has `operator<<` and is iterable. -/
theorem insertion_beats_structural_witness :
    Traits.std_string.has_insertion = true ∧ Traits.std_string.is_c_str = false ∧
      Overload.enabled Traits.std_string .iterable = false ∧
      Overload.resolve Traits.std_string = some .insertion :=
  ⟨rfl, rfl, (insertion_beats_structural Traits.std_string rfl rfl).2.2.2.1,
    (insertion_beats_structural Traits.std_string rfl rfl).2.2.2.2.1 rfl rfl⟩

/-- C16 on the code: for a unique pointer type with stream insertion, as `std::unique_ptr`
is in C++20, two overloads are enabled, the one for `operator<<` and the one for unique
pointers, and the call selects none; likewise for a weak pointer type with stream
insertion. Without stream insertion each of the two has one overload, its own. -/
theorem candidates_pointer_with_insertion :
    Overload.candidates (Traits.std_unique_ptr true) = [.insertion, .unique_ptr] ∧
      Overload.resolve (Traits.std_unique_ptr true) = none ∧
      Overload.candidates (Traits.std_weak_ptr true) = [.insertion, .weak_ptr] ∧
      Overload.resolve (Traits.std_weak_ptr true) = none ∧
      Overload.resolve (Traits.std_unique_ptr false) = some .unique_ptr ∧
      Overload.resolve (Traits.std_weak_ptr false) = some .weak_ptr := by
  decide

/-- C19: when `Icecream::print` is handed k >= 1 values and more than k names, it writes
exactly k entries `name: value`, the i-th value with the i-th name, and the text is the one
it writes for the first k names alone. -/
theorem print_extra_names (ic : Icecream) (file : String) (line : Int) (function : String)
    (names : List String) (args : List Value) (hk : 1 ≤ args.length)
    (hm : args.length < names.length) :
    Icecream.print ic file line function names args
        = some (Icecream.print_prefix ic
            ++ ", ".intercalate (List.zipWith
                (fun name value => name ++ ": " ++ Icecream.print_value ic value) names args)
            ++ "\n") ∧
      (List.zipWith (fun name value => name ++ ": " ++ Icecream.print_value ic value)
        names args).length = args.length ∧
      Icecream.print ic file line function names args
        = Icecream.print ic file line function (names.take args.length) args := by
  cases args with
  | nil => simp at hk
  | cons v vs =>
    have h1 := print_all_args_zip_le ic (v :: vs) names (Nat.le_of_lt hm) (by simp)
    have h2 := print_all_args_zip_le ic (v :: vs) (names.take (v :: vs).length)
      (by rw [List.length_take]; omega) (by simp)
    have hz : List.zipWith (fun name value => name ++ ": " ++ Icecream.print_value ic value)
        (names.take (v :: vs).length) (v :: vs)
        = List.zipWith (fun name value => name ++ ": " ++ Icecream.print_value ic value)
          names (v :: vs) := by
      conv_rhs =>
        rw [List.zipWith_eq_zipWith_take_min, Nat.min_eq_right (Nat.le_of_lt hm),
          List.take_length]
    refine ⟨?_, ?_, ?_⟩
    · simp only [Icecream.print, h1]
    · rw [List.length_zipWith]; omega
    · simp only [Icecream.print, h1, h2, hz]

/-- C19 at two names for one value. -/
theorem print_extra_names_witness :
    1 ≤ [Value.insertion "5"].length ∧ [Value.insertion "5"].length < ["x", "y"].length ∧
      Icecream.print Icecream.ctor "main.cpp" 10 "foo" ["x", "y"] [Value.insertion "5"]
        = some "ic| x: 5\n" :=
  ⟨by decide, by decide,
    (print_extra_names Icecream.ctor "main.cpp" 10 "foo" ["x", "y"] [Value.insertion "5"]
      (by decide) (by decide)).1⟩

/-- C20: the configuration mutators change only their own field. After `show_c_string(b)`
the getter returns `b` and the fixed prefix string and the prefix function are unchanged;
after either `prefix` setter the getter `show_c_string()` returns what it returned
before. -/
theorem config_frame (ic : Icecream) :
    (∀ value : Bool,
        Icecream.show_c_string (Icecream.set_show_c_string ic value) = value ∧
        Icecream.str_prefix (Icecream.set_show_c_string ic value) = ic.str_prefix ∧
        Icecream.func_prefix (Icecream.set_show_c_string ic value) = ic.func_prefix) ∧
      (∀ value : String,
        Icecream.show_c_string (Icecream.prefix_str ic value) = Icecream.show_c_string ic) ∧
      (∀ value : Option (Unit → String),
        Icecream.show_c_string (Icecream.prefix_func ic value) = Icecream.show_c_string ic) := by
  refine ⟨fun _ => ⟨rfl, rfl, rfl⟩, fun _ => rfl, fun _ => rfl⟩

/-! ## The reads of the splitter -/

/-- When the trailing loop stops, every position it read lies inside the text: it read the
positions `e_it - 1 .. it - 1`, with `1 ≤ e_it` and `it ≤ size`. -/
theorem trailing_bounds (s : List Char) :
    ∀ (it e_it : Nat), print.trailing s it = some e_it →
      1 ≤ e_it ∧ e_it ≤ it ∧ it ≤ s.length := by
  intro it
  induction it with
  | zero => intro e_it h; simp [print.trailing] at h
  | succ n ih =>
    intro e_it h
    rw [print.trailing] at h
    cases hc : s[n]? with
    | none => simp [hc] at h
    | some c =>
      have hn : n < s.length := by
        by_contra hlt
        rw [List.getElem?_eq_none (by omega)] at hc
        exact absurd hc (by simp)
      simp only [hc] at h
      by_cases hsp : c = ' '
      · rw [if_pos hsp] at h
        have := ih e_it h
        omega
      · rw [if_neg hsp] at h
        simp only [Option.some.injEq] at h
        omega

/-- When the leading loop stops, every position it read lies inside the text: it read the
positions `b_it .. b` of the text whose characters from `b_it` on are `rest`. -/
theorem leading_bounds :
    ∀ (rest : List Char) (b_it b : Nat), print.leading rest b_it = some b →
      b_it ≤ b ∧ b < b_it + rest.length := by
  intro rest
  induction rest with
  | nil => intro b_it b h; simp [print.leading] at h
  | cons c rest ih =>
    intro b_it b h
    rw [print.leading] at h
    by_cases hsp : c = ' '
    · rw [if_pos hsp] at h
      have := ih (b_it + 1) b h
      simp only [List.length_cons]
      omega
    · rw [if_neg hsp] at h
      simp only [Option.some.injEq] at h
      simp only [List.length_cons]
      omega

/-- A name is built only when both trimming loops stopped inside the text and the range
they leave is not inverted. -/
theorem emplace_some (s : List Char) (b_it it : Nat) (name : String)
    (h : print.emplace s b_it it = some name) :
    ∃ e b, print.trailing s it = some e ∧ print.leading (s.drop b_it) b_it = some b ∧
      1 ≤ e ∧ e ≤ it ∧ it ≤ s.length ∧ b_it ≤ b ∧ b < s.length ∧ b ≤ e := by
  unfold print.emplace at h
  cases hT : print.trailing s it with
  | none => simp [hT] at h
  | some e =>
    cases hL : print.leading (s.drop b_it) b_it with
    | none => simp [hT, hL] at h
    | some b =>
      simp only [hT, hL] at h
      by_cases hbe : b ≤ e
      · have h1 := trailing_bounds s it e hT
        have h2 := leading_bounds _ _ _ hL
        rw [List.length_drop] at h2
        exact ⟨e, b, rfl, rfl, h1.1, h1.2.1, h1.2.2, h2.1, by omega, hbe⟩
      · rw [if_neg hbe] at h
        exact absurd h (by simp)

/-- When the loop returns, a name was built at every position where it took the separator
branch. -/
theorem loop_separators (s : List Char) :
    ∀ (rest : List Char) (it b_it : Nat) (par_count : Int) (names out : List String),
      print.loop s rest it b_it par_count names = some out →
      ∀ r ∈ print.separators rest it b_it par_count,
        ∃ name, print.emplace s r.1 r.2 = some name := by
  intro rest
  induction rest with
  | nil =>
    intro it b_it par_count names out h r hr
    rw [print.loop] at h
    simp only [print.separators, List.mem_singleton] at hr
    subst hr
    cases hE : print.emplace s b_it it with
    | none => simp [hE] at h
    | some name => exact ⟨name, rfl⟩
  | cons c cs ih =>
    intro it b_it par_count names out h r hr
    rw [print.loop] at h
    rw [print.separators] at hr
    split_ifs at h hr with h1 h2 h3
    · cases hE : print.emplace s b_it it with
      | none => simp [hE] at h
      | some name =>
        simp only [hE] at h
        rcases List.mem_cons.1 hr with rfl | hr
        · exact ⟨name, hE⟩
        · exact ih _ _ _ _ _ h r hr
    · exact ih _ _ _ _ _ h r hr
    · exact ih _ _ _ _ _ h r hr
    · exact ih _ _ _ _ _ h r hr

theorem segmentsFrom_length :
    ∀ (rest before cur : List Char),
      (segmentsFrom before cur rest).length = 1 + topCommasFrom before rest := by
  intro rest
  induction rest with
  | nil => intro before cur; simp [segmentsFrom, topCommasFrom]
  | cons c cs ih =>
    intro before cur
    rw [segmentsFrom, topCommasFrom]
    by_cases h : c = ',' ∧ depth before = 0
    · rw [if_pos h, if_pos h, List.length_cons, ih]
      omega
    · rw [if_neg h, if_neg h, ih]
      omega

/-! ## The claims on the reads and the count of the splitter -/

/-- C17: for every raw text in which every top-level comma-separated segment holds a
non-space character, the splitter loop ends with a list of names, and at every position
`(b_it, it)` where it takes the separator branch both trimming loops stop having read only
positions inside the text (the trailing loop the positions `e - 1 .. it - 1` with `1 ≤ e`
and `it ≤ size`, the leading loop the positions `b_it .. b` with `b < size`), and the start
`b` of the name is not after its end `e`. The scan itself reads `*it` only in the branches
taken while `it` is before the end of the text. -/
theorem split_names_in_bounds (arg_names : String)
    (h : ∀ seg ∈ segments arg_names.data, ∃ c ∈ seg, c ≠ ' ') :
    (∃ names, print.split_names arg_names = some names) ∧
      ∀ r ∈ print.separators arg_names.data 0 0 0,
        ∃ e b, print.trailing arg_names.data r.2 = some e ∧
          print.leading (arg_names.data.drop r.1) r.1 = some b ∧
          1 ≤ e ∧ e ≤ r.2 ∧ r.2 ≤ arg_names.length ∧
          r.1 ≤ b ∧ b < arg_names.length ∧ b ≤ e := by
  have hs := split_names_segments arg_names h
  refine ⟨⟨_, hs⟩, ?_⟩
  intro r hr
  obtain ⟨name, hname⟩ := loop_separators arg_names.data arg_names.data 0 0 0 [] _ hs r hr
  exact emplace_some _ _ _ _ hname

/-- C17 at a raw text of two segments with spaces around them. -/
theorem split_names_in_bounds_witness :
    (∀ seg ∈ segments "  foo(a, b) , bar ".data, ∃ c ∈ seg, c ≠ ' ') ∧
      print.separators "  foo(a, b) , bar ".data 0 0 0 = [(0, 12), (13, 18)] ∧
      ∃ names, print.split_names "  foo(a, b) , bar " = some names :=
  ⟨by decide, by decide, (split_names_in_bounds "  foo(a, b) , bar " (by decide)).1⟩

/-- C18: for every raw text in which every top-level comma-separated segment holds a
non-space character, the splitter returns one name more than the text has commas met at
parenthesis depth zero, hence at least one name; a comma met at another depth, negative
ones included, does not count. -/
theorem split_names_count (arg_names : String)
    (h : ∀ seg ∈ segments arg_names.data, ∃ c ∈ seg, c ≠ ' ') :
    ∃ names, print.split_names arg_names = some names ∧
      names.length = 1 + topCommas arg_names.data ∧ 1 ≤ names.length := by
  refine ⟨_, split_names_segments arg_names h, ?_, ?_⟩
  · rw [List.length_map, segments, segmentsFrom_length, topCommas]
  · rw [List.length_map, segments, segmentsFrom_length]
    omega

/-- C18 at a raw text with one comma at depth zero, one inside parentheses and one after an
unmatched `)`. -/
theorem split_names_count_witness :
    (∀ seg ∈ segments "f(x, y), a), b".data, ∃ c ∈ seg, c ≠ ' ') ∧
      topCommas "f(x, y), a), b".data = 1 ∧
      print.split_names "f(x, y), a), b" = some ["f(x, y)", "a), b"] ∧
      ∃ names, print.split_names "f(x, y), a), b" = some names ∧
        names.length = 1 + topCommas "f(x, y), a), b".data ∧ 1 ≤ names.length :=
  ⟨by decide, by decide, by decide, split_names_count "f(x, y), a), b" (by decide)⟩

end icecream
